import Mathlib

/-!
Verification of the response-parsing core of the prediction-market creation
tool (src/index.js).  The core is the parse pipeline inside `handleSubmit`:

  * a strict extractor: a regex searching for a fenced code block
    (triple backtick, optional `json` tag) whose capture is fed to
    `JSON.parse`; when no fence matches, the whole text is fed to
    `JSON.parse`;
  * on any `JSON.parse` exception, the heuristic splitter `extractSection`
    is applied per keyword set to the text split into lines.

Text is modelled as `List Char`.  JS string methods used by the source
(`includes`, `toLowerCase`, `trim`, `split('\n')`, `join('\n')`) are
modelled below; `toLowerCase` is modelled on the ASCII range and the
whitespace class is the usual ECMAScript WhiteSpace/LineTerminator set
(all inputs considered here are ASCII).
-/

/-- Characters of a string literal, the working representation of text. -/
def lc (s : String) : List Char := s.data

/-- ECMAScript whitespace (`\s`, `String.prototype.trim`):
space, tab, LF, CR, VT, FF, NBSP, ogham space, the U+2000..U+200A range,
line/paragraph separators, NNBSP, MMSP, ideographic space and BOM. -/
def jsWsB (c : Char) : Bool :=
  c == ' ' || c == '\t' || c == '\n' || c == '\r' || c == '\x0b' || c == '\x0c' ||
  c == '\u00A0' || c == '\u1680' ||
  (decide (0x2000 ≤ c.toNat) && decide (c.toNat ≤ 0x200a)) ||
  c == '\u2028' || c == '\u2029' || c == '\u202F' || c == '\u205F' ||
  c == '\u3000' || c == '\uFEFF'

/-- Model of `String.prototype.trim`: drop whitespace from both ends. -/
def trimL (l : List Char) : List Char :=
  ((l.dropWhile jsWsB).reverse.dropWhile jsWsB).reverse

/-- ASCII lowering of one character (model of `toLowerCase` on the
inputs considered, which are ASCII). -/
def lowerChar (c : Char) : Char :=
  if 'A' ≤ c && c ≤ 'Z' then Char.ofNat (c.toNat + 32) else c

/-- Model of `String.prototype.toLowerCase`. -/
def toLowerL (l : List Char) : List Char := l.map lowerChar

/-- Model of `String.prototype.includes`: `sub` occurs contiguously in `l`. -/
def containsSub : List Char → List Char → Bool
  | [], sub => List.isPrefixOf sub []
  | x :: rest, sub => List.isPrefixOf sub (x :: rest) || containsSub rest sub

/-- Model of `String.prototype.split(c)` for a one-character separator. -/
def splitChar (c : Char) : List Char → List (List Char)
  | [] => [[]]
  | x :: xs =>
    if x = c then [] :: splitChar c xs
    else
      match splitChar c xs with
      | [] => [[x]]
      | p :: ps => (x :: p) :: ps

/-- Model of `Array.prototype.join('\n')`. -/
def joinNL : List (List Char) → List Char
  | [] => []
  | [l] => l
  | l :: l' :: rest => l ++ '\n' :: joinNL (l' :: rest)

/-! ## Model of the value produced by `JSON.parse`

Numbers are kept as their source token (the code never computes with
them), objects as the member list in source order.  `JSON.parse`
coalesces duplicate keys (last wins) and combines surrogate pairs; no
input considered here has either. -/

inductive Json where
  | null : Json
  | bool (b : Bool) : Json
  | num (lit : List Char) : Json
  | str (s : List Char) : Json
  | arr (elems : List Json) : Json
  | obj (members : List (List Char × Json)) : Json

/-- Reading a string-valued property off a decoded value (the shape in
which the caller consumes the record). -/
def Json.strField (j : Json) (k : List Char) : Option (List Char) :=
  match j with
  | .obj ms =>
    match ms.find? (fun m => m.1 == k) with
    | some (_, .str s) => some s
    | _ => none
  | _ => none

/-- JSON-grammar whitespace (space, tab, LF, CR). -/
def jsonWsB (c : Char) : Bool :=
  [' ', '\t', '\r', '\n'].any fun w => w == c

def skipJWs (cs : List Char) : List Char := cs.dropWhile jsonWsB

def hexVal (c : Char) : Option Nat :=
  match c.toNat with
  | n =>
    if 48 ≤ n ∧ n ≤ 57 then some (n - 48)
    else if 97 ≤ n ∧ n ≤ 102 then some (n - 87)
    else if 65 ≤ n ∧ n ≤ 70 then some (n - 55)
    else none

def escSimple : Char → Option Char
  | '"' => some '"'
  | '\\' => some '\\'
  | '/' => some '/'
  | 'b' => some (Char.ofNat 8)
  | 't' => some (Char.ofNat 9)
  | 'n' => some (Char.ofNat 10)
  | 'f' => some (Char.ofNat 12)
  | 'r' => some (Char.ofNat 13)
  | _ => none

/-- Body of a JSON string after the opening quote: returns the decoded
content and the remainder after the closing quote. -/
def parseJStringAux : List Char → Option (List Char × List Char)
  | [] => none
  | '"' :: rest => some ([], rest)
  | '\\' :: 'u' :: h1 :: h2 :: h3 :: h4 :: r3 =>
    match hexVal h1, hexVal h2, hexVal h3, hexVal h4 with
    | some a, some b, some c, some d =>
      match parseJStringAux r3 with
      | some (s, r4) => some (Char.ofNat (((a * 16 + b) * 16 + c) * 16 + d) :: s, r4)
      | none => none
    | _, _, _, _ => none
  | '\\' :: e :: r2 =>
    match escSimple e with
    | some ch =>
      match parseJStringAux r2 with
      | some (s, r4) => some (ch :: s, r4)
      | none => none
    | none => none
  | c :: rest =>
    if c.toNat < 32 then none
    else
      match parseJStringAux rest with
      | some (s, r4) => some (c :: s, r4)
      | none => none

def digit09 (c : Char) : Bool := decide (48 ≤ c.toNat) && decide (c.toNat ≤ 57)

def parseIntPart (cs : List Char) : Option (List Char × List Char) :=
  let ds := cs.takeWhile digit09
  if ds.isEmpty then none
  else if decide (1 < ds.length) && ds.head? == some '0' then none
  else some (ds, cs.dropWhile digit09)

def parseFracPart : List Char → Option (List Char × List Char)
  | '.' :: rr =>
    let ds := rr.takeWhile digit09
    if ds.isEmpty then none else some ('.' :: ds, rr.dropWhile digit09)
  | cs => some ([], cs)

def parseExpPart : List Char → Option (List Char × List Char)
  | [] => some ([], [])
  | e :: rr =>
    if e == 'e' || e == 'E' then
      let sr : List Char × List Char :=
        match rr with
        | '+' :: t => (['+'], t)
        | '-' :: t => (['-'], t)
        | _ => ([], rr)
      let ds := sr.2.takeWhile digit09
      if ds.isEmpty then none
      else some (e :: sr.1 ++ ds, sr.2.dropWhile digit09)
    else some ([], e :: rr)

/-- A JSON number token (sign, integer part, fraction, exponent). -/
def parseJNumber (cs : List Char) : Option (List Char × List Char) :=
  let sr : List Char × List Char :=
    match cs with
    | '-' :: r => (['-'], r)
    | _ => ([], cs)
  match parseIntPart sr.2 with
  | none => none
  | some (i, r1) =>
    match parseFracPart r1 with
    | none => none
    | some (f, r2) =>
      match parseExpPart r2 with
      | none => none
      | some (x, r3) => some (sr.1 ++ i ++ f ++ x, r3)

mutual

/-- Recursive-descent model of `JSON.parse`'s value grammar; the fuel
argument strictly exceeds the number of nested/sequenced parse steps. -/
def parseJValue : Nat → List Char → Option (Json × List Char)
  | 0, _ => none
  | fuel + 1, cs =>
    let cs1 := skipJWs cs
    if List.isPrefixOf (lc "true") cs1 then some (.bool true, cs1.drop 4)
    else if List.isPrefixOf (lc "false") cs1 then some (.bool false, cs1.drop 5)
    else if List.isPrefixOf (lc "null") cs1 then some (.null, cs1.drop 4)
    else
      match cs1 with
      | [] => none
      | c :: rest =>
        if c == '\x7b' then
          match skipJWs rest with
          | '\x7d' :: r2 => some (.obj [], r2)
          | r2 =>
            match parseJMembers fuel r2 [] with
            | some (ms, r3) => some (.obj ms, r3)
            | none => none
        else if c == '[' then
          match skipJWs rest with
          | ']' :: r2 => some (.arr [], r2)
          | r2 =>
            match parseJItems fuel r2 [] with
            | some (vs, r3) => some (.arr vs, r3)
            | none => none
        else if c == '"' then
          match parseJStringAux rest with
          | some (s, r2) => some (.str s, r2)
          | none => none
        else
          match parseJNumber (c :: rest) with
          | some (tok, r2) => some (.num tok, r2)
          | none => none

/-- Object members: `"key" : value` separated by commas, ended by `}`. -/
def parseJMembers : Nat → List Char → List (List Char × Json) →
    Option (List (List Char × Json) × List Char)
  | 0, _, _ => none
  | fuel + 1, cs, acc =>
    match skipJWs cs with
    | '"' :: r1 =>
      match parseJStringAux r1 with
      | none => none
      | some (key, r2) =>
        match skipJWs r2 with
        | ':' :: r3 =>
          match parseJValue fuel r3 with
          | none => none
          | some (v, r4) =>
            match skipJWs r4 with
            | ',' :: r5 => parseJMembers fuel r5 (acc ++ [(key, v)])
            | '\x7d' :: r5 => some (acc ++ [(key, v)], r5)
            | _ => none
        | _ => none
    | _ => none

/-- Array items: values separated by commas, ended by `]`. -/
def parseJItems : Nat → List Char → List Json → Option (List Json × List Char)
  | 0, _, _ => none
  | fuel + 1, cs, acc =>
    match parseJValue fuel cs with
    | none => none
    | some (v, r1) =>
      match skipJWs r1 with
      | ',' :: r2 => parseJItems fuel r2 (acc ++ [v])
      | ']' :: r2 => some (acc ++ [v], r2)
      | _ => none

end

/-- Model of `JSON.parse`: `none` exactly when `JSON.parse` throws. -/
def jsonParse (cs : List Char) : Option Json :=
  match parseJValue (cs.length + 2) cs with
  | some (v, rest) => if skipJWs rest == [] then some v else none
  | none => none

/-! ## Model of the fenced-block regex

The source applies `content.match(/```(?:json)?\s*(\x7b[\s\S]*\x7d)\s*```/)`
and on a match feeds the first capture group to `JSON.parse`.  The
backtracking semantics of this pattern reduce to: take the leftmost
position where three backticks, an optional literal `json`, a maximal
whitespace run and an opening brace match (the optional-group and `\s*`
steps are deterministic here because `j` and `{` are not whitespace);
then, since `[\s\S]*` is greedy, the capture extends to the *last*
closing brace that is followed by optional whitespace and three
backticks.  If no such closing position exists anywhere, later starting
positions cannot succeed either (any closer for a later brace would
close the earlier one), so the whole match fails. -/

def backtickC : Char := '\x60'

def fence3 : List Char := [backtickC, backtickC, backtickC]

/-- The open part of the pattern at the current position: three
backticks, optional `json`, whitespace, then an opening brace; returns
the suffix beginning at the brace. -/
def fenceOpenAt (cs : List Char) : Option (List Char) :=
  if List.isPrefixOf fence3 cs then
    let r1 := cs.drop 3
    let r2 := if List.isPrefixOf (lc "json") r1 then r1.drop 4 else r1
    let r3 := r2.dropWhile jsWsB
    match r3 with
    | c :: _ => if c == '\x7b' then some r3 else none
    | [] => none
  else none

/-- Leftmost position whose open part matches (the regex engine advances
the starting position one character at a time). -/
def findFenceOpen : List Char → Option (List Char)
  | [] => none
  | c :: rest =>
    match fenceOpenAt (c :: rest) with
    | some r => some r
    | none => findFenceOpen rest

/-- After a candidate closing brace: optional whitespace then three
backticks (`\s*` + closing fence). -/
def closesAfter (cs : List Char) : Bool :=
  List.isPrefixOf fence3 (cs.dropWhile jsWsB)

/-- Position `j` of `bs` carries a closing brace whose suffix closes the
fence. -/
def isCloserAt (bs : List Char) (j : Nat) : Bool :=
  (bs.get? j == some '\x7d') && closesAfter (bs.drop (j + 1))

/-- Greatest closer index below `n` (greedy `[\s\S]*` takes the last). -/
def findLastCloser (bs : List Char) : Nat → Option Nat
  | 0 => none
  | n + 1 => if isCloserAt bs n then some n else findLastCloser bs n

/-- The capture group of the first regex match, when the regex matches. -/
def fenceCapture (content : List Char) : Option (List Char) :=
  match findFenceOpen content with
  | none => none
  | some bs =>
    match findLastCloser bs bs.length with
    | none => none
    | some j => some (bs.take (j + 1))

/-- The text handed to `JSON.parse`: the fence capture when the regex
matches, the whole response otherwise. -/
def strictCandidate (content : List Char) : List Char :=
  match fenceCapture content with
  | some c => c
  | none => content

/-! ## The heuristic splitter `extractSection` -/

/-- The sentinel substituted for a section that joins and trims to the
empty string. -/
def sentinel : List Char := lc "Content not found in expected format"

/-- The header test of the loop:
`keywords.some(k => line.includes(k) && (line.includes(':') || line.includes('#')))`
on the lowercased line. -/
def lineHeaderB (kws : List (List Char)) (l : List Char) : Bool :=
  kws.any fun kw => containsSub (toLowerL l) kw &&
    (containsSub (toLowerL l) [':'] || containsSub (toLowerL l) ['#'])

/-- The loop's blank test `line.trim() === ''` (on the lowercased line). -/
def isBlankB (l : List Char) : Bool := trimL (toLowerL l) == []

/-- The lookahead test on the next non-empty line:
`lines[n].toLowerCase().includes(':') || lines[n].toLowerCase().includes('#')`. -/
def lookColonHash (l : List Char) : Bool :=
  containsSub (toLowerL l) [':'] || containsSub (toLowerL l) ['#']

/-- The lookahead scan: first following line with `trim() !== ''`. -/
def nextNonEmptyLine (ls : List (List Char)) : Option (List Char) :=
  ls.find? fun l => !(trimL l == [])

/-- Whether the blank-line lookahead decides to break out of the loop. -/
def lookBreak (rest : List (List Char)) : Bool :=
  match nextNonEmptyLine rest with
  | some m => lookColonHash m
  | none => false

/-- The loop of `extractSection`: `inSec` is the `inSection` flag, `acc`
the collected `section` array; the value is the collected array when the
loop ends or breaks. -/
def extractGo (kws : List (List Char)) :
    List (List Char) → Bool → List (List Char) → List (List Char)
  | [], _, acc => acc
  | l :: rest, inSec, acc =>
    if lineHeaderB kws l then extractGo kws rest true acc
    else if inSec then
      if isBlankB l && !acc.isEmpty && lookBreak rest then acc
      else extractGo kws rest inSec (acc ++ [l])
    else extractGo kws rest inSec acc

/-- `extractSection(lines, ...keywords)`:
`section.join('\n').trim() || 'Content not found in expected format'`. -/
def extractSection (lines : List (List Char)) (kws : List (List Char)) : List Char :=
  if trimL (joinNL (extractGo kws lines false [])) == [] then sentinel
  else trimL (joinNL (extractGo kws lines false []))

def rcKeywords : List (List Char) := [lc "resolution", lc "criteria"]
def descKeywords : List (List Char) := [lc "description"]
def edgeKeywords : List (List Char) := [lc "edge", lc "cases"]

def rcKey : List Char := lc "resolutionCriteria"
def descKey : List Char := lc "description"
def ecKey : List Char := lc "edgeCases"

/-- The fallback object built when `JSON.parse` throws. -/
def heuristicJson (content : List Char) : Json :=
  Json.obj [(rcKey, .str (extractSection (splitChar '\n' content) rcKeywords)),
            (descKey, .str (extractSection (splitChar '\n' content) descKeywords)),
            (ecKey, .str (extractSection (splitChar '\n' content) edgeKeywords))]

/-- The composed pipeline assigning `parsedContent` in `handleSubmit`:
strict extraction when `JSON.parse` succeeds on the candidate text, the
heuristic record otherwise. -/
def parseModelResponse (content : List Char) : Json :=
  match jsonParse (strictCandidate content) with
  | some v => v
  | none => heuristicJson content

/-- A value is a fully populated response record: a mapping carrying the
three required keys, each bound to a string. -/
def isFullRecord : Json → Bool
  | .obj ms => [rcKey, descKey, ecKey].all fun k =>
      ms.any fun m => m.1 == k && (match m.2 with | .str _ => true | _ => false)
  | _ => false

/-! ## Basic facts about the string model -/

theorem toNat_ofNat_or (n : Nat) : (Char.ofNat n).toNat = n ∨ (Char.ofNat n).toNat = 0 := by
  unfold Char.ofNat
  by_cases h : n.isValidChar
  · rw [dif_pos h]; left; rfl
  · rw [dif_neg h]; right; rfl

theorem charLe_toNat {a b : Char} (h : a ≤ b) : a.toNat ≤ b.toNat := by
  rw [Char.le_def, UInt32.le_def, BitVec.le_def] at h
  exact h

theorem lowerChar_eq_of_toNat_lt {c d : Char} (hd : d.toNat < 65) (hd0 : d.toNat ≠ 0) :
    lowerChar c = d → c = d := by
  unfold lowerChar
  by_cases h : ('A' ≤ c && c ≤ 'Z') = true
  · rw [if_pos h]
    intro he
    have hA : 'A' ≤ c := of_decide_eq_true (Bool.and_eq_true .. ▸ h).1
    have h65 : (65 : Nat) ≤ c.toNat := charLe_toNat hA
    have ht : (Char.ofNat (c.toNat + 32)).toNat = d.toNat := congrArg Char.toNat he
    rcases toNat_ofNat_or (c.toNat + 32) with h1 | h1 <;> rw [h1] at ht
    · omega
    · exact absurd ht.symm hd0
  · rw [if_neg h]; exact id

theorem lowerChar_eq_colon {c : Char} (h : lowerChar c = ':') : c = ':' :=
  lowerChar_eq_of_toNat_lt (by decide) (by decide) h

theorem lowerChar_eq_hash {c : Char} (h : lowerChar c = '#') : c = '#' :=
  lowerChar_eq_of_toNat_lt (by decide) (by decide) h

theorem mem_toLowerL_colon {l : List Char} (h : ':' ∈ toLowerL l) : ':' ∈ l := by
  rcases List.mem_map.1 h with ⟨c, hc, he⟩
  exact lowerChar_eq_colon he ▸ hc

theorem mem_toLowerL_hash {l : List Char} (h : '#' ∈ toLowerL l) : '#' ∈ l := by
  rcases List.mem_map.1 h with ⟨c, hc, he⟩
  exact lowerChar_eq_hash he ▸ hc

theorem mem_dropWhileNeg {p : Char → Bool} {c : Char} :
    ∀ {l : List Char}, c ∈ l → p c = false → c ∈ l.dropWhile p
  | [], h, _ => absurd h (List.not_mem_nil c)
  | x :: xs, h, hp => by
    by_cases hx : p x = true
    · rw [List.dropWhile_cons_of_pos hx]
      rcases List.mem_cons.1 h with he | hm
      · exact absurd (he ▸ hp) (by simp [hx, he])
      · exact mem_dropWhileNeg hm hp
    · rw [List.dropWhile_cons_of_neg (by simpa using hx)]
      exact h

theorem mem_trimL {c : Char} {l : List Char} (hc : jsWsB c = false) (h : c ∈ l) :
    c ∈ trimL l := by
  unfold trimL
  have h1 : c ∈ l.dropWhile jsWsB := mem_dropWhileNeg h hc
  have h2 : c ∈ (l.dropWhile jsWsB).reverse := List.mem_reverse.2 h1
  exact List.mem_reverse.2 (mem_dropWhileNeg h2 hc)

theorem trimL_ne_nil_of_mem {c : Char} {l : List Char} (hc : jsWsB c = false) (h : c ∈ l) :
    trimL l ≠ [] :=
  List.ne_nil_of_mem (mem_trimL hc h)

/-! ### `containsSub` and infixes -/

theorem containsSub_infix_iff {l sub : List Char} : containsSub l sub = true ↔ sub <:+: l := by
  induction l with
  | nil =>
    simp only [containsSub, List.isPrefixOf_iff_prefix, List.prefix_nil, List.infix_nil]
  | cons x rest ih =>
    simp only [containsSub, Bool.or_eq_true, List.isPrefixOf_iff_prefix, ih,
      List.infix_cons_iff]

theorem containsSub_mono {p q sub : List Char} (h : p <:+: q)
    (hp : containsSub p sub = true) : containsSub q sub = true :=
  containsSub_infix_iff.2 ((containsSub_infix_iff.1 hp).trans h)

theorem containsSub_single_iff_mem {l : List Char} {c : Char} :
    containsSub l [c] = true ↔ c ∈ l := by
  rw [containsSub_infix_iff]
  constructor
  · intro ⟨u, v, he⟩
    exact he ▸ List.mem_append.2 (Or.inl (List.mem_append.2 (Or.inr (List.mem_singleton_self c))))
  · intro h
    rcases List.append_of_mem h with ⟨u, v, he⟩
    exact ⟨u, v, by simp [he]⟩

/-! ### Header lines are not blank -/

theorem lookColonHash_of_header {kws : List (List Char)} {l : List Char}
    (h : lineHeaderB kws l = true) : lookColonHash l = true := by
  unfold lineHeaderB at h
  rcases List.any_eq_true.1 h with ⟨kw, _, hkw⟩
  exact (Bool.and_eq_true .. ▸ hkw).2

theorem not_isBlankB_of_lookColonHash {l : List Char} (h : lookColonHash l = true) :
    isBlankB l = false := by
  unfold lookColonHash at h
  unfold isBlankB
  simp only [Bool.or_eq_true] at h
  rcases h with hc | hc
  · exact beq_eq_false_iff_ne.2
      (trimL_ne_nil_of_mem (by decide) (containsSub_single_iff_mem.1 hc))
  · exact beq_eq_false_iff_ne.2
      (trimL_ne_nil_of_mem (by decide) (containsSub_single_iff_mem.1 hc))

theorem not_isBlankB_of_header {kws : List (List Char)} {l : List Char}
    (h : lineHeaderB kws l = true) : isBlankB l = false :=
  not_isBlankB_of_lookColonHash (lookColonHash_of_header h)

theorem header_of_not_blank {kws : List (List Char)} {l : List Char}
    (h : isBlankB l = true) : lineHeaderB kws l = false := by
  by_contra hc
  rw [Bool.not_eq_false] at hc
  rw [not_isBlankB_of_header hc] at h
  cases h

/-- A line whose lowering carries a colon or hash is non-empty after an
original-case trim (the lookahead's notion of a non-empty line). -/
theorem trimL_ne_nil_of_lookColonHash {l : List Char} (h : lookColonHash l = true) :
    trimL l ≠ [] := by
  unfold lookColonHash at h
  simp only [Bool.or_eq_true] at h
  rcases h with hc | hc
  · exact trimL_ne_nil_of_mem (by decide)
      (mem_toLowerL_colon (containsSub_single_iff_mem.1 hc))
  · exact trimL_ne_nil_of_mem (by decide)
      (mem_toLowerL_hash (containsSub_single_iff_mem.1 hc))

/-! ### `splitChar` and `joinNL` -/

theorem splitChar_cons_sep {c : Char} (xs : List Char) :
    splitChar c (c :: xs) = [] :: splitChar c xs := by
  conv_lhs => unfold splitChar
  rw [if_pos rfl]

theorem splitChar_cons_eq {c x : Char} {xs p : List Char} {ps : List (List Char)}
    (hx : ¬x = c) (h : splitChar c xs = p :: ps) :
    splitChar c (x :: xs) = (x :: p) :: ps := by
  conv_lhs => unfold splitChar
  rw [if_neg hx, h]

theorem splitChar_ne_nil {c : Char} : ∀ {s : List Char}, splitChar c s ≠ []
  | [] => by simp [splitChar]
  | x :: xs => by
    by_cases hx : x = c
    · subst hx; rw [splitChar_cons_sep]; simp
    · rcases hs : splitChar c xs with _ | ⟨p, ps⟩
      · exact absurd hs splitChar_ne_nil
      · rw [splitChar_cons_eq hx hs]; simp

theorem not_mem_of_mem_splitChar {c : Char} :
    ∀ {s : List Char} {p : List Char}, p ∈ splitChar c s → c ∉ p
  | [], p, hp => by
    simp only [splitChar, List.mem_singleton] at hp
    simp [hp]
  | x :: xs, p, hp => by
    by_cases hx : x = c
    · subst hx
      rw [splitChar_cons_sep] at hp
      rcases List.mem_cons.1 hp with he | hm
      · simp [he]
      · exact not_mem_of_mem_splitChar hm
    · rcases hs : splitChar c xs with _ | ⟨q, ps⟩
      · exact absurd hs splitChar_ne_nil
      · rw [splitChar_cons_eq hx hs] at hp
        rcases List.mem_cons.1 hp with he | hm
        · subst he
          intro hmem
          rcases List.mem_cons.1 hmem with he2 | hm2
          · exact hx he2.symm
          · exact not_mem_of_mem_splitChar (hs ▸ List.mem_cons_self q ps) hm2
        · exact not_mem_of_mem_splitChar (hs ▸ List.mem_cons.2 (Or.inr hm))

theorem splitChar_head_prefixOf {c : Char} :
    ∀ {s p : List Char} {ps : List (List Char)}, splitChar c s = p :: ps → p <+: s
  | [], p, ps, h => by
    simp only [splitChar] at h
    cases h; exact List.prefix_rfl
  | x :: xs, p, ps, h => by
    by_cases hx : x = c
    · subst hx
      rw [splitChar_cons_sep] at h
      cases h; exact List.nil_prefix
    · rcases hs : splitChar c xs with _ | ⟨q, qs⟩
      · exact absurd hs splitChar_ne_nil
      · rw [splitChar_cons_eq hx hs] at h
        cases h
        exact List.prefix_cons_iff.2 (Or.inr ⟨q, rfl, splitChar_head_prefixOf hs⟩)

theorem infix_of_mem_splitChar {c : Char} :
    ∀ {s : List Char} {p : List Char}, p ∈ splitChar c s → p <:+: s
  | [], p, hp => by
    simp only [splitChar, List.mem_singleton] at hp
    simp [hp]
  | x :: xs, p, hp => by
    by_cases hx : x = c
    · subst hx
      rw [splitChar_cons_sep] at hp
      rcases List.mem_cons.1 hp with he | hm
      · simp [he]
      · exact (infix_of_mem_splitChar hm).trans (List.infix_cons_iff.2 (Or.inr List.infix_rfl))
    · rcases hs : splitChar c xs with _ | ⟨q, qs⟩
      · exact absurd hs splitChar_ne_nil
      · rw [splitChar_cons_eq hx hs] at hp
        rcases List.mem_cons.1 hp with he | hm
        · subst he
          exact (splitChar_head_prefixOf (splitChar_cons_eq hx hs)).isInfix
        · exact (infix_of_mem_splitChar (hs ▸ List.mem_cons.2 (Or.inr hm))).trans
            (List.infix_cons_iff.2 (Or.inr List.infix_rfl))

theorem splitChar_of_not_mem {c : Char} {l : List Char} (h : c ∉ l) :
    splitChar c l = [l] := by
  induction l with
  | nil => rfl
  | cons x xs ih =>
    have hx : ¬x = c := fun he => h (he ▸ List.mem_cons_self x xs)
    exact splitChar_cons_eq hx (ih (fun hm => h (List.mem_cons.2 (Or.inr hm))))

theorem splitChar_append_cons {c : Char} (t : List Char) :
    ∀ (l : List Char), c ∉ l → splitChar c (l ++ c :: t) = l :: splitChar c t
  | [], _ => splitChar_cons_sep t
  | x :: xs, h => by
    have hx : ¬x = c := fun he => h (he ▸ List.mem_cons_self x xs)
    have ih := splitChar_append_cons t xs (fun hm => h (List.mem_cons.2 (Or.inr hm)))
    exact splitChar_cons_eq hx ih

theorem splitChar_joinNL {S : List (List Char)} (hnl : ∀ l ∈ S, '\n' ∉ l)
    (hne : S ≠ []) : splitChar '\n' (joinNL S) = S := by
  induction S with
  | nil => exact absurd rfl hne
  | cons l S' ih =>
    cases S' with
    | nil => exact splitChar_of_not_mem (hnl l (List.mem_cons_self l _))
    | cons l2 S2 =>
      show splitChar '\n' (l ++ '\n' :: joinNL (l2 :: S2)) = _
      rw [splitChar_append_cons _ l (hnl l (List.mem_cons_self _ _)),
        ih (fun q hq => hnl q (List.mem_cons.2 (Or.inr hq))) (by simp)]

/-! ### Newline-free infixes of a join lie inside one line -/

theorem prefix_through_sep {c : Char} :
    ∀ {a z t : List Char}, c ∉ t → t <+: a ++ c :: z → t <+: a
  | [], z, t, hc, hp => by
    rcases List.prefix_cons_iff.1 (by simpa using hp) with he | ⟨t', he, _⟩
    · simp [he]
    · exact absurd (he ▸ List.mem_cons_self c t') hc
  | y :: a', z, t, hc, hp => by
    rcases List.prefix_cons_iff.1 (by simpa using hp) with he | ⟨t', he, hp'⟩
    · simp [he]
    · subst he
      have := prefix_through_sep (fun hm => hc (List.mem_cons.2 (Or.inr hm))) hp'
      simpa using this

theorem infix_through_sep {c : Char} :
    ∀ {a z p : List Char}, c ∉ p → p <:+: a ++ c :: z → p <:+: a ∨ p <:+: z
  | [], z, p, hc, hi => by
    rcases List.infix_cons_iff.1 (by simpa using hi) with hp | hi'
    · rcases List.prefix_cons_iff.1 hp with he | ⟨t', he, _⟩
      · exact Or.inl (by simp [he])
      · exact absurd (he ▸ List.mem_cons_self c t') hc
    · exact Or.inr hi'
  | y :: a', z, p, hc, hi => by
    rcases List.infix_cons_iff.1 (by simpa using hi) with hp | hi'
    · rcases List.prefix_cons_iff.1 hp with he | ⟨t', he, hp'⟩
      · exact Or.inl (by simp [he])
      · subst he
        have ht' : t' <+: a' ++ c :: z := hp'
        have := prefix_through_sep (fun hm => hc (List.mem_cons.2 (Or.inr hm))) ht'
        exact Or.inl ((List.prefix_cons_iff.2 (Or.inr ⟨t', rfl, this⟩)).isInfix)
    · rcases infix_through_sep hc hi' with h | h
      · exact Or.inl (h.trans (List.infix_cons_iff.2 (Or.inr List.infix_rfl)))
      · exact Or.inr h

theorem nlfree_infix_joinNL :
    ∀ {S : List (List Char)} {p : List Char}, '\n' ∉ p → p <:+: joinNL S → S ≠ [] →
      ∃ q ∈ S, p <:+: q
  | [], p, _, _, hne => absurd rfl hne
  | [l], p, _, hi, _ => ⟨l, List.mem_cons_self l [], hi⟩
  | l :: l2 :: S2, p, hnl, hi, _ => by
    have hi2 : p <:+: l ++ '\n' :: joinNL (l2 :: S2) := hi
    rcases infix_through_sep hnl hi2 with h | h
    · exact ⟨l, List.mem_cons_self _ _, h⟩
    · rcases nlfree_infix_joinNL hnl h (by simp) with ⟨q, hq, hpq⟩
      exact ⟨q, List.mem_cons.2 (Or.inr hq), hpq⟩

/-! ### `trimL` is an infix -/

theorem trimL_sub (l : List Char) : trimL l <:+: l := by
  have h1 : l.dropWhile jsWsB <:+ l := List.dropWhile_suffix jsWsB
  have h2 : (l.dropWhile jsWsB).reverse.dropWhile jsWsB <:+ (l.dropWhile jsWsB).reverse :=
    List.dropWhile_suffix jsWsB
  have h3 : ((l.dropWhile jsWsB).reverse.dropWhile jsWsB).reverse <+:
      ((l.dropWhile jsWsB).reverse).reverse := List.reverse_prefix.2 h2
  rw [List.reverse_reverse] at h3
  exact h3.isInfix.trans h1.isInfix

/-! ### Stepping lemmas for the splitter loop -/

theorem extractGo_nil {kws : List (List Char)} {inSec : Bool} {acc : List (List Char)} :
    extractGo kws [] inSec acc = acc := rfl

theorem extractGo_header {kws : List (List Char)} {l : List Char}
    {rest acc : List (List Char)} {inSec : Bool} (h : lineHeaderB kws l = true) :
    extractGo kws (l :: rest) inSec acc = extractGo kws rest true acc := by
  simp [extractGo, h]

theorem extractGo_seek {kws : List (List Char)} {l : List Char}
    {rest acc : List (List Char)} (h : lineHeaderB kws l = false) :
    extractGo kws (l :: rest) false acc = extractGo kws rest false acc := by
  simp [extractGo, h]

theorem extractGo_push {kws : List (List Char)} {l : List Char}
    {rest acc : List (List Char)} (h : lineHeaderB kws l = false)
    (hno : (isBlankB l && !acc.isEmpty && lookBreak rest) = false) :
    extractGo kws (l :: rest) true acc = extractGo kws rest true (acc ++ [l]) := by
  simp [extractGo, h, hno]

theorem extractGo_break {kws : List (List Char)} {l : List Char}
    {rest acc : List (List Char)} (h : lineHeaderB kws l = false)
    (hb : isBlankB l = true) (ha : acc ≠ []) (hl : lookBreak rest = true) :
    extractGo kws (l :: rest) true acc = acc := by
  have hae : acc.isEmpty = false := by
    cases acc with
    | nil => exact absurd rfl ha
    | cons a as => rfl
  simp [extractGo, h, hb, hl, hae]

theorem extractGo_skipAll {kws : List (List Char)} :
    ∀ {lines : List (List Char)} {acc : List (List Char)},
      (∀ l ∈ lines, lineHeaderB kws l = false) → extractGo kws lines false acc = acc
  | [], _, _ => rfl
  | l :: rest, acc, h => by
    rw [extractGo_seek (h l (List.mem_cons_self l rest))]
    exact extractGo_skipAll (fun q hq => h q (List.mem_cons.2 (Or.inr hq)))

theorem extractGo_skipPart {kws : List (List Char)} {rest : List (List Char)} :
    ∀ (P : List (List Char)) {acc : List (List Char)},
      (∀ l ∈ P, lineHeaderB kws l = false) →
      extractGo kws (P ++ rest) false acc = extractGo kws rest false acc
  | [], _, _ => rfl
  | l :: P', acc, h => by
    rw [List.cons_append, extractGo_seek (h l (List.mem_cons_self l P'))]
    exact extractGo_skipPart P' (fun q hq => h q (List.mem_cons.2 (Or.inr hq)))

theorem extractGo_collect {kws : List (List Char)} {rest : List (List Char)} :
    ∀ (body : List (List Char)) {acc : List (List Char)},
      (∀ l ∈ body, lineHeaderB kws l = false ∧ isBlankB l = false) →
      extractGo kws (body ++ rest) true acc = extractGo kws rest true (acc ++ body)
  | [], acc, _ => by simp
  | l :: body', acc, h => by
    have hl := h l (List.mem_cons_self l body')
    rw [List.cons_append, extractGo_push hl.1 (by simp [hl.2]),
      extractGo_collect body' (fun q hq => h q (List.mem_cons.2 (Or.inr hq)))]
    simp

theorem extractGo_mem {kws : List (List Char)} :
    ∀ {lines : List (List Char)} {inSec : Bool} {acc : List (List Char)} {q : List Char},
      q ∈ extractGo kws lines inSec acc →
      q ∈ acc ∨ (q ∈ lines ∧ lineHeaderB kws q = false)
  | [], _, acc, q, h => Or.inl h
  | l :: rest, inSec, acc, q, h => by
    by_cases hh : lineHeaderB kws l = true
    · rw [extractGo_header hh] at h
      rcases extractGo_mem h with h1 | ⟨h1, h2⟩
      · exact Or.inl h1
      · exact Or.inr ⟨List.mem_cons.2 (Or.inr h1), h2⟩
    · have hh' : lineHeaderB kws l = false := by simpa using hh
      cases inSec with
      | false =>
        rw [extractGo_seek hh'] at h
        rcases extractGo_mem h with h1 | ⟨h1, h2⟩
        · exact Or.inl h1
        · exact Or.inr ⟨List.mem_cons.2 (Or.inr h1), h2⟩
      | true =>
        by_cases hbr : (isBlankB l && !acc.isEmpty && lookBreak rest) = true
        · have hb : isBlankB l = true := by
            rcases Bool.and_eq_true .. ▸ hbr with ⟨h3, _⟩
            exact (Bool.and_eq_true .. ▸ h3).1
          have ha : acc ≠ [] := by
            rcases Bool.and_eq_true .. ▸ hbr with ⟨h3, _⟩
            have := (Bool.and_eq_true .. ▸ h3).2
            simpa [List.isEmpty_eq_true] using this
          have hl : lookBreak rest = true := (Bool.and_eq_true .. ▸ hbr).2
          rw [extractGo_break hh' hb ha hl] at h
          exact Or.inl h
        · rw [extractGo_push hh' (by simpa using hbr)] at h
          rcases extractGo_mem h with h1 | ⟨h1, h2⟩
          · rcases List.mem_append.1 h1 with h3 | h3
            · exact Or.inl h3
            · have he : q = l := by simpa using h3
              exact Or.inr ⟨List.mem_cons.2 (Or.inl he), he ▸ hh'⟩
          · exact Or.inr ⟨List.mem_cons.2 (Or.inr h1), h2⟩

/-! ### Header-rule facts used across claims -/

theorem lineHeaderB_of_no_colonHash {kws : List (List Char)} {l : List Char}
    (h : lookColonHash l = false) : lineHeaderB kws l = false := by
  unfold lookColonHash at h
  unfold lineHeaderB
  rw [Bool.or_eq_false_iff] at h
  refine List.any_eq_false.2 fun kw _ => ?_
  simp [h.1, h.2]

theorem lineHeaderB_infix_mono {kws : List (List Char)} {p q : List Char}
    (hpq : p <:+: q) (hq : lineHeaderB kws q = false) : lineHeaderB kws p = false := by
  by_contra hc
  rw [Bool.not_eq_false] at hc
  unfold lineHeaderB at hc hq
  rcases List.any_eq_true.1 hc with ⟨kw, hkw, hp⟩
  rw [Bool.and_eq_true, Bool.or_eq_true] at hp
  have hmap : toLowerL p <:+: toLowerL q := List.IsInfix.map lowerChar hpq
  have h1 : containsSub (toLowerL q) kw = true := containsSub_mono hmap hp.1
  have h2 : (containsSub (toLowerL q) [':'] || containsSub (toLowerL q) ['#']) = true := by
    rcases hp.2 with h3 | h3
    · exact Bool.or_eq_true .. ▸ Or.inl (containsSub_mono hmap h3)
    · exact Bool.or_eq_true .. ▸ Or.inr (containsSub_mono hmap h3)
  have : List.any kws (fun kw => containsSub (toLowerL q) kw &&
      (containsSub (toLowerL q) [':'] || containsSub (toLowerL q) ['#'])) = true :=
    List.any_eq_true.2 ⟨kw, hkw, by simp [h1, h2]⟩
  rw [this] at hq
  cases hq

theorem extractSection_sentinel_of_no_header {lines kws : List (List Char)}
    (h : ∀ l ∈ lines, lineHeaderB kws l = false) : extractSection lines kws = sentinel := by
  unfold extractSection
  rw [extractGo_skipAll h]
  rfl

/-! ## Claim C1 -/

/-- C1 counterexample: on the input `\x7b\x7d` (an empty JSON object) the
pipeline succeeds strictly and returns a value carrying none of the three
fields — the code performs no shape validation after `JSON.parse`, so the
record-shape invariant claimed for every input fails. -/
theorem c1_counterexample :
    isFullRecord (parseModelResponse (lc "\x7b\x7d")) = false ∧
    Json.strField (parseModelResponse (lc "\x7b\x7d")) rcKey = none ∧
    Json.strField (parseModelResponse (lc "\x7b\x7d")) descKey = none ∧
    Json.strField (parseModelResponse (lc "\x7b\x7d")) ecKey = none :=
  ⟨rfl, rfl, rfl, rfl⟩

theorem isFullRecord_heuristicJson (content : List Char) :
    isFullRecord (heuristicJson content) = true := rfl

/-- C1 (amended): the three-field/string-field invariant holds on every
input on which strict decoding fails (the fallback record is always fully
populated); when `JSON.parse` succeeds, its value is returned without
validation and may lack any of the fields. -/
theorem c1_fallback_full_record (content : List Char)
    (h : jsonParse (strictCandidate content) = none) :
    isFullRecord (parseModelResponse content) = true := by
  unfold parseModelResponse
  rw [h]
  exact isFullRecord_heuristicJson content

theorem c1_fallback_full_record_witness :
    jsonParse (strictCandidate (lc "plain text")) = none ∧
    isFullRecord (parseModelResponse (lc "plain text")) = true :=
  ⟨rfl, c1_fallback_full_record (lc "plain text") rfl⟩

/-! ## Claim C2 -/

/-- C2 counterexample: the input `\x7b"resolutionCriteria": "X"\x7d` is a
valid JSON mapping missing `description` and `edgeCases`; the claim says
the strict path must fail (`MissingField`) and the heuristic result must
be returned, but the code returns the partial decoded record as is, which
differs from the heuristic record on the `description` field. -/
theorem c2_counterexample :
    parseModelResponse (lc "\x7b\"resolutionCriteria\": \"X\"\x7d") =
      Json.obj [(rcKey, Json.str (lc "X"))] ∧
    Json.strField (parseModelResponse (lc "\x7b\"resolutionCriteria\": \"X\"\x7d"))
      descKey = none ∧
    Json.strField (heuristicJson (lc "\x7b\"resolutionCriteria\": \"X\"\x7d"))
      descKey = some sentinel :=
  ⟨rfl, rfl, rfl⟩

/-- C2 (amended): whenever `JSON.parse` succeeds on the candidate text the
decoded value is returned unchanged — even when it is not a mapping or is
missing required keys — and the heuristic splitter runs only on syntactic
parse failure, never on shape grounds. -/
theorem c2_no_shape_validation (content : List Char) (v : Json)
    (h : jsonParse (strictCandidate content) = some v)
    (hv : isFullRecord v = false) : parseModelResponse content = v := by
  unfold parseModelResponse
  rw [h]

theorem c2_no_shape_validation_witness :
    jsonParse (strictCandidate (lc "[1, 2]")) = some (Json.arr [Json.num (lc "1"), Json.num (lc "2")]) ∧
    isFullRecord (Json.arr [Json.num (lc "1"), Json.num (lc "2")]) = false ∧
    parseModelResponse (lc "[1, 2]") = Json.arr [Json.num (lc "1"), Json.num (lc "2")] :=
  ⟨rfl, rfl, c2_no_shape_validation (lc "[1, 2]") _ rfl rfl⟩

/-! ## Claim C7 -/

/-- C7: when strict decoding fails and no line of the text is a header
line for any of the three keyword sets, the pipeline returns the record
whose three fields all equal the sentinel string. -/
theorem c7_all_sentinel (content : List Char)
    (h : jsonParse (strictCandidate content) = none)
    (h1 : ∀ l ∈ splitChar '\n' content, lineHeaderB rcKeywords l = false)
    (h2 : ∀ l ∈ splitChar '\n' content, lineHeaderB descKeywords l = false)
    (h3 : ∀ l ∈ splitChar '\n' content, lineHeaderB edgeKeywords l = false) :
    parseModelResponse content =
      Json.obj [(rcKey, Json.str sentinel), (descKey, Json.str sentinel),
        (ecKey, Json.str sentinel)] := by
  unfold parseModelResponse
  rw [h]
  unfold heuristicJson
  rw [extractSection_sentinel_of_no_header h1, extractSection_sentinel_of_no_header h2,
    extractSection_sentinel_of_no_header h3]


theorem c7_all_sentinel_witness :
    jsonParse (strictCandidate (lc "hello world")) = none ∧
    parseModelResponse (lc "hello world") =
      Json.obj [(rcKey, Json.str sentinel), (descKey, Json.str sentinel),
        (ecKey, Json.str sentinel)] :=
  ⟨rfl, c7_all_sentinel (lc "hello world") rfl (by decide) (by decide) (by decide)⟩

/-! ## Claim C10 -/

/-- C10: no field produced by the heuristic splitter is the empty string;
whenever the collected lines join and trim to the empty string the field
is the sentinel string instead. -/
theorem c10_never_empty (lines kws : List (List Char)) :
    extractSection lines kws ≠ [] ∧
    (trimL (joinNL (extractGo kws lines false [])) = [] →
      extractSection lines kws = sentinel) := by
  unfold extractSection
  by_cases h : trimL (joinNL (extractGo kws lines false [])) == []
  · rw [if_pos h]
    exact ⟨by decide, fun _ => rfl⟩
  · rw [if_neg h]
    exact ⟨by simpa using h, fun he => absurd he (by simpa using h)⟩

theorem c10_never_empty_witness :
    extractSection [] rcKeywords ≠ [] ∧ extractSection [] rcKeywords = sentinel :=
  ⟨(c10_never_empty [] rcKeywords).1, (c10_never_empty [] rcKeywords).2 rfl⟩

/-! ## Claim C3 -/

/-- C3 counterexample: the input contains one fenced block whose inner
content is a valid JSON mapping with all three keys (shown by the first
conjunct), yet because the regex's `[\s\S]*` is greedy the capture runs
to the last closing brace before a later backtick triple in the trailing
prose, `JSON.parse` fails on it, and the result does not carry the
fenced values. -/
theorem c3_counterexample :
    jsonParse (lc "\x7b\"resolutionCriteria\":\"X\",\"description\":\"Y\",\"edgeCases\":\"Z\"\x7d") =
      some (Json.obj [(rcKey, Json.str (lc "X")), (descKey, Json.str (lc "Y")),
        (ecKey, Json.str (lc "Z"))]) ∧
    fenceCapture (lc "```json\n\x7b\"resolutionCriteria\":\"X\",\"description\":\"Y\",\"edgeCases\":\"Z\"\x7d\n```\nsee also \x7d```") =
      some (lc "\x7b\"resolutionCriteria\":\"X\",\"description\":\"Y\",\"edgeCases\":\"Z\"\x7d\n```\nsee also \x7d") ∧
    Json.strField (parseModelResponse (lc "```json\n\x7b\"resolutionCriteria\":\"X\",\"description\":\"Y\",\"edgeCases\":\"Z\"\x7d\n```\nsee also \x7d```")) rcKey ≠
      some (lc "X") :=
  ⟨rfl, rfl, by decide⟩

/-- C3 (amended): whenever the regex's capture is exactly a fenced JSON
mapping carrying the three keys (in particular when the surrounding prose
contains no further brace-then-fence text that the greedy capture could
extend to), the pipeline returns exactly those three values unmodified. -/
theorem c3_fenced_exact (content inner x y z : List Char)
    (hc : fenceCapture content = some inner)
    (hj : jsonParse inner = some (Json.obj [(rcKey, Json.str x), (descKey, Json.str y),
      (ecKey, Json.str z)])) :
    parseModelResponse content =
      Json.obj [(rcKey, Json.str x), (descKey, Json.str y), (ecKey, Json.str z)] := by
  unfold parseModelResponse strictCandidate
  rw [hc, hj]

theorem c3_fenced_exact_witness :
    fenceCapture (lc "```json\n\x7b\"resolutionCriteria\":\"X\",\"description\":\"Y\",\"edgeCases\":\"Z\"\x7d\n``` Some trailing prose.") =
      some (lc "\x7b\"resolutionCriteria\":\"X\",\"description\":\"Y\",\"edgeCases\":\"Z\"\x7d") ∧
    parseModelResponse (lc "```json\n\x7b\"resolutionCriteria\":\"X\",\"description\":\"Y\",\"edgeCases\":\"Z\"\x7d\n``` Some trailing prose.") =
      Json.obj [(rcKey, Json.str (lc "X")), (descKey, Json.str (lc "Y")),
        (ecKey, Json.str (lc "Z"))] :=
  ⟨rfl, c3_fenced_exact _ _ (lc "X") (lc "Y") (lc "Z") rfl rfl⟩

/-! ## Claim C4 -/

theorem isCloserAt_ge_length {bs : List Char} {k : Nat} (h : bs.length ≤ k) :
    isCloserAt bs k = false := by
  unfold isCloserAt
  rw [List.get?_eq_none.2 h]
  rfl

theorem findLastCloser_spec {bs : List Char} :
    ∀ {n j : Nat}, findLastCloser bs n = some j →
      j < n ∧ isCloserAt bs j = true ∧ ∀ k, j < k → k < n → isCloserAt bs k = false := by
  intro n
  induction n with
  | zero => intro j h; cases h
  | succ n ih =>
    intro j h
    unfold findLastCloser at h
    by_cases hc : isCloserAt bs n = true
    · rw [if_pos hc] at h
      cases h
      exact ⟨Nat.lt_succ_self _, hc, fun k hk1 hk2 => absurd (Nat.lt_of_lt_of_le hk1 (Nat.le_of_lt_succ hk2)) (Nat.lt_irrefl _)⟩
    · rw [if_neg hc] at h
      rcases ih h with ⟨hj, hcl, hall⟩
      refine ⟨Nat.lt_succ_of_lt hj, hcl, fun k hk1 hk2 => ?_⟩
      rcases Nat.lt_succ_iff_lt_or_eq.1 hk2 with h2 | h2
      · exact hall k hk1 h2
      · subst h2; simpa using hc

/-- C4 counterexample: with two fenced JSON blocks the capture is not the
first block's inner content — the greedy `[\s\S]*` extends it to the last
block's closing brace, `JSON.parse` then fails on the capture, and the
result is the heuristic fallback instead of the first block's decode, so
later blocks do affect the decoded result. -/
theorem c4_counterexample :
    fenceCapture (lc "```\n\x7b\"a\":1\x7d\n```\n```\n\x7b\"b\":2\x7d\n```") =
      some (lc "\x7b\"a\":1\x7d\n```\n```\n\x7b\"b\":2\x7d") ∧
    lc "\x7b\"a\":1\x7d\n```\n```\n\x7b\"b\":2\x7d" ≠ lc "\x7b\"a\":1\x7d" ∧
    jsonParse (lc "\x7b\"a\":1\x7d") = some (Json.obj [(lc "a", Json.num (lc "1"))]) ∧
    jsonParse (lc "\x7b\"a\":1\x7d\n```\n```\n\x7b\"b\":2\x7d") = none ∧
    Json.strField (parseModelResponse (lc "```\n\x7b\"a\":1\x7d\n```\n```\n\x7b\"b\":2\x7d\n```")) rcKey =
      some sentinel :=
  ⟨rfl, by decide, rfl, rfl, rfl⟩

/-- C4 (amended): the extractor applies the regex once at the leftmost
viable opening; the greedy inner quantifier makes the capture run from
that opening brace to the *last* position carrying a closing brace
followed by optional whitespace and a backtick triple — so with several
fenced blocks the capture spans them all and later blocks' content
affects the decoded result. -/
theorem c4_greedy_capture (content bs : List Char) (j : Nat)
    (ho : findFenceOpen content = some bs)
    (hcl : findLastCloser bs bs.length = some j) :
    fenceCapture content = some (bs.take (j + 1)) ∧ isCloserAt bs j = true ∧
    ∀ k, j < k → isCloserAt bs k = false := by
  have hs := findLastCloser_spec hcl
  refine ⟨?_, hs.2.1, fun k hk => ?_⟩
  · simp only [fenceCapture, ho, hcl]
  · by_cases hkl : k < bs.length
    · exact hs.2.2 k hk hkl
    · exact isCloserAt_ge_length (Nat.le_of_not_lt hkl)

theorem c4_greedy_capture_witness :
    findFenceOpen (lc "```\n\x7b\"a\":1\x7d\n```\n```\n\x7b\"b\":2\x7d\n```") =
      some (lc "\x7b\"a\":1\x7d\n```\n```\n\x7b\"b\":2\x7d\n```") ∧
    findLastCloser (lc "\x7b\"a\":1\x7d\n```\n```\n\x7b\"b\":2\x7d\n```")
      (lc "\x7b\"a\":1\x7d\n```\n```\n\x7b\"b\":2\x7d\n```").length = some 22 ∧
    fenceCapture (lc "```\n\x7b\"a\":1\x7d\n```\n```\n\x7b\"b\":2\x7d\n```") =
      some ((lc "\x7b\"a\":1\x7d\n```\n```\n\x7b\"b\":2\x7d\n```").take 23) :=
  ⟨rfl, rfl,
    (c4_greedy_capture (lc "```\n\x7b\"a\":1\x7d\n```\n```\n\x7b\"b\":2\x7d\n```")
      (lc "\x7b\"a\":1\x7d\n```\n```\n\x7b\"b\":2\x7d\n```") 22 rfl rfl).1⟩

/-! ## Claim C5 -/

/-- C5 counterexample: in `Description:\nA\n\ntime: 12pm` the line after
the blank run, `time: 12pm`, is not a recognized header for any of the
three keyword sets, yet the splitter finalizes the section at the blank
line (the lookahead tests only for a colon or hash, not for keywords), so
the blank line and the following line are not retained. -/
theorem c5_counterexample :
    lineHeaderB rcKeywords (lc "time: 12pm") = false ∧
    lineHeaderB descKeywords (lc "time: 12pm") = false ∧
    lineHeaderB edgeKeywords (lc "time: 12pm") = false ∧
    extractSection (splitChar '\n' (lc "Description:\nA\n\ntime: 12pm")) descKeywords =
      lc "A" ∧
    lc "A" ≠ lc "A\n\ntime: 12pm" :=
  ⟨rfl, rfl, rfl, rfl, by decide⟩

/-- C5 (amended): at a blank line inside a section with content already
collected, the decision is made by the next non-blank line's colon/hash
test alone — the section is finalized exactly when that line contains a
colon or a hash (whether or not it carries any keyword), and the blank
line is retained and collection continues otherwise. -/
theorem c5_blank_lookahead (kws : List (List Char)) (l m : List Char)
    (rest acc : List (List Char)) (hb : isBlankB l = true) (ha : acc ≠ [])
    (hm : nextNonEmptyLine rest = some m) :
    extractGo kws (l :: rest) true acc =
      if lookColonHash m = true then acc else extractGo kws rest true (acc ++ [l]) := by
  have hh : lineHeaderB kws l = false := header_of_not_blank hb
  have hlb : lookBreak rest = lookColonHash m := by
    unfold lookBreak
    rw [hm]
  by_cases hc : lookColonHash m = true
  · rw [if_pos hc]
    exact extractGo_break hh hb ha (hlb.trans hc)
  · rw [if_neg hc]
    refine extractGo_push hh ?_
    rw [hlb, Bool.eq_false_iff.2 hc]
    simp

theorem c5_blank_lookahead_witness :
    isBlankB (lc "") = true ∧ ([lc "A"] : List (List Char)) ≠ [] ∧
    nextNonEmptyLine [lc "time: 12pm"] = some (lc "time: 12pm") ∧
    extractGo descKeywords [lc "", lc "time: 12pm"] true [lc "A"] =
      if lookColonHash (lc "time: 12pm") = true then [lc "A"]
      else extractGo descKeywords [lc "time: 12pm"] true [lc "A", lc ""] :=
  ⟨rfl, by decide, rfl,
    c5_blank_lookahead descKeywords (lc "") (lc "time: 12pm") [lc "time: 12pm"]
      [lc "A"] rfl (by decide) rfl⟩

/-! ## Claim C6 -/

/-- C6 counterexample: while collecting the `description` section, the
line `Edge Cases:` — a recognized header of a different keyword set,
with no blank line before it — does not finalize the section: it and the
lines after it are appended to the section's content. -/
theorem c6_counterexample :
    lineHeaderB edgeKeywords (lc "Edge Cases:") = true ∧
    lineHeaderB descKeywords (lc "Edge Cases:") = false ∧
    extractSection (splitChar '\n' (lc "Description:\nA\nEdge Cases:\nB")) descKeywords =
      lc "A\nEdge Cases:\nB" ∧
    lc "A\nEdge Cases:\nB" ≠ lc "A" :=
  ⟨rfl, rfl, rfl, by decide⟩

/-- C6 (amended): a line that is not a header for the active keyword set
but carries a colon or hash — in particular a recognized header line of a
different set — is appended to the open section and collection continues;
without a preceding blank line no finalization takes place. -/
theorem c6_foreign_header_collected (kws : List (List Char)) (l : List Char)
    (rest acc : List (List Char)) (hh : lineHeaderB kws l = false)
    (hch : lookColonHash l = true) :
    extractGo kws (l :: rest) true acc = extractGo kws rest true (acc ++ [l]) := by
  refine extractGo_push hh ?_
  rw [not_isBlankB_of_lookColonHash hch]
  simp

theorem c6_foreign_header_collected_witness :
    lineHeaderB descKeywords (lc "Edge Cases:") = false ∧
    lookColonHash (lc "Edge Cases:") = true ∧
    extractGo descKeywords [lc "Edge Cases:", lc "B"] true [lc "A"] =
      extractGo descKeywords [lc "B"] true [lc "A", lc "Edge Cases:"] :=
  ⟨rfl, rfl,
    c6_foreign_header_collected descKeywords (lc "Edge Cases:") [lc "B"] [lc "A"] rfl rfl⟩

/-! ## Claim C9 -/

/-- C9: for any input text and keyword set, no line of the field produced
by the heuristic splitter satisfies that set's own header rule — header
lines are consumed as markers and never emitted as content, and the
sentinel contains neither colon nor hash. -/
theorem c9_no_header_in_field (content : List Char) (kws : List (List Char))
    (p : List Char)
    (hp : p ∈ splitChar '\n' (extractSection (splitChar '\n' content) kws)) :
    lineHeaderB kws p = false := by
  unfold extractSection at hp
  by_cases hS : (trimL (joinNL (extractGo kws (splitChar '\n' content) false [])) == []) = true
  · rw [if_pos hS] at hp
    have hsp : splitChar '\n' sentinel = [sentinel] := rfl
    rw [hsp] at hp
    have he : p = sentinel := by simpa using hp
    subst he
    exact lineHeaderB_of_no_colonHash (by decide)
  · rw [if_neg hS] at hp
    have hinf : p <:+: joinNL (extractGo kws (splitChar '\n' content) false []) :=
      (infix_of_mem_splitChar hp).trans (trimL_sub _)
    have hnl : '\n' ∉ p := not_mem_of_mem_splitChar hp
    have hSne : extractGo kws (splitChar '\n' content) false [] ≠ [] := by
      intro h0
      apply hS
      rw [h0]
      rfl
    rcases nlfree_infix_joinNL hnl hinf hSne with ⟨q, hqS, hpq⟩
    rcases extractGo_mem hqS with h0 | ⟨_, hqh⟩
    · exact absurd h0 (List.not_mem_nil q)
    · exact lineHeaderB_infix_mono hpq hqh

theorem c9_no_header_in_field_witness :
    sentinel ∈ splitChar '\n' (extractSection (splitChar '\n' (lc "x")) rcKeywords) ∧
    lineHeaderB rcKeywords sentinel = false :=
  ⟨by decide, c9_no_header_in_field (lc "x") rcKeywords sentinel (by decide)⟩

/-! ## Claim C8 -/

/-- Scanning a well-formed section: a prefix with no headers for the set,
the set's header line, a body of non-blank non-header lines, then either
end of input or a blank line followed (after more blanks) by a line with
a colon or hash.  The collected array is exactly the body. -/
theorem extractGo_section (kws : List (List Char)) (A : List (List Char))
    (hdl : List Char) (body T : List (List Char))
    (hA : ∀ l ∈ A, lineHeaderB kws l = false)
    (hhd : lineHeaderB kws hdl = true)
    (hbody : ∀ l ∈ body, lineHeaderB kws l = false ∧ isBlankB l = false)
    (hbne : body ≠ [])
    (hT : T = [] ∨ ∃ rest2 m, T = ([] : List Char) :: rest2 ∧
      nextNonEmptyLine rest2 = some m ∧ lookColonHash m = true) :
    extractGo kws (A ++ hdl :: (body ++ T)) false [] = body := by
  rw [extractGo_skipPart A hA, extractGo_header hhd, extractGo_collect body hbody]
  rcases hT with hT | ⟨rest2, m, hT, hm, hc⟩
  · subst hT
    rw [extractGo_nil]
    simp
  · subst hT
    rw [List.nil_append]
    refine extractGo_break (header_of_not_blank rfl) rfl hbne ?_
    unfold lookBreak
    rw [hm]
    exact hc

/-- The keyword sets by field position. -/
def kwSet : Fin 3 → List (List Char)
  | 0 => rcKeywords
  | 1 => descKeywords
  | 2 => edgeKeywords

/-- Three sections, each a header line followed by its body, separated by
one blank line, laid out in the order `a`, `b`, `c`. -/
def threeSections (hd : Fin 3 → List Char) (body : Fin 3 → List (List Char))
    (a b c : Fin 3) : List (List Char) :=
  (hd a :: body a) ++ ([] :: ((hd b :: body b) ++ ([] :: (hd c :: body c))))

theorem fin3_cover (a b c t : Fin 3) (hab : a ≠ b) (hac : a ≠ c) (hbc : b ≠ c) :
    t = a ∨ t = b ∨ t = c := by
  revert a b c t
  decide

theorem nextNonEmptyLine_header {kws : List (List Char)} {hdl : List Char}
    {rest : List (List Char)} (h : lineHeaderB kws hdl = true) :
    nextNonEmptyLine (hdl :: rest) = some hdl := by
  unfold nextNonEmptyLine
  refine List.find?_cons_of_pos rest ?_
  have := trimL_ne_nil_of_lookColonHash (lookColonHash_of_header h)
  simpa using this

theorem extractGo_threeSections (hd : Fin 3 → List Char)
    (body : Fin 3 → List (List Char))
    (hhd : ∀ i, lineHeaderB (kwSet i) (hd i) = true)
    (hcross : ∀ i j, i ≠ j → lineHeaderB (kwSet i) (hd j) = false)
    (hbody : ∀ i j, ∀ l ∈ body j, lineHeaderB (kwSet i) l = false)
    (hblank : ∀ j, ∀ l ∈ body j, isBlankB l = false)
    (hbne : ∀ j, body j ≠ [])
    (x y z : Fin 3) (hxy : x ≠ y) (hxz : x ≠ z) (hyz : y ≠ z) (t : Fin 3) :
    extractGo (kwSet t) (threeSections hd body x y z) false [] = body t := by
  have hblankline : ∀ kws : List (List Char), lineHeaderB kws [] = false :=
    fun kws => header_of_not_blank rfl
  rcases fin3_cover x y z t hxy hxz hyz with ht | ht | ht
  · subst ht
    have e1 : threeSections hd body t y z =
        [] ++ (hd t :: (body t ++ ([] :: ((hd y :: body y) ++ ([] :: (hd z :: body z)))))) := by
      simp [threeSections]
    rw [e1]
    refine extractGo_section _ _ _ _ _ (by simp) (hhd t)
      (fun l hl => ⟨hbody t t l hl, hblank t l hl⟩) (hbne t) (Or.inr ?_)
    exact ⟨(hd y :: body y) ++ ([] :: (hd z :: body z)), hd y, rfl,
      nextNonEmptyLine_header (hhd y), lookColonHash_of_header (hhd y)⟩
  · subst ht
    have e1 : threeSections hd body x t z =
        ((hd x :: body x) ++ [([] : List Char)]) ++
          (hd t :: (body t ++ ([] :: (hd z :: body z)))) := by
      simp [threeSections]
    rw [e1]
    refine extractGo_section _ _ _ _ _ ?_ (hhd t)
      (fun l hl => ⟨hbody t t l hl, hblank t l hl⟩) (hbne t) (Or.inr ?_)
    · intro l hl
      simp only [List.mem_append, List.mem_cons, List.not_mem_nil, or_false] at hl
      rcases hl with (he | hm) | he
      · exact he ▸ hcross t x (Ne.symm hxy)
      · exact hbody t x l hm
      · exact he ▸ hblankline _
    · exact ⟨hd z :: body z, hd z, rfl, nextNonEmptyLine_header (hhd z),
        lookColonHash_of_header (hhd z)⟩
  · subst ht
    have e1 : threeSections hd body x y t =
        ((hd x :: body x) ++ ([] :: ((hd y :: body y) ++ [([] : List Char)]))) ++
          (hd t :: (body t ++ [])) := by
      simp [threeSections]
    rw [e1]
    refine extractGo_section _ _ _ _ _ ?_ (hhd t)
      (fun l hl => ⟨hbody t t l hl, hblank t l hl⟩) (hbne t) (Or.inl rfl)
    intro l hl
    simp only [List.mem_append, List.mem_cons, List.not_mem_nil, or_false] at hl
    rcases hl with (he | hm) | he | (he | hm) | he
    · exact he ▸ hcross t x (Ne.symm hxz)
    · exact hbody t x l hm
    · exact he ▸ hblankline _
    · exact he ▸ hcross t y (Ne.symm hyz)
    · exact hbody t y l hm
    · exact he ▸ hblankline _

/-- The field value obtained from a collected array of lines. -/
def fieldOf (bs : List (List Char)) : List Char :=
  if trimL (joinNL bs) == [] then sentinel else trimL (joinNL bs)

theorem heuristicJson_threeSections (hd : Fin 3 → List Char)
    (body : Fin 3 → List (List Char))
    (hhd : ∀ i, lineHeaderB (kwSet i) (hd i) = true)
    (hcross : ∀ i j, i ≠ j → lineHeaderB (kwSet i) (hd j) = false)
    (hbody : ∀ i j, ∀ l ∈ body j, lineHeaderB (kwSet i) l = false)
    (hblank : ∀ j, ∀ l ∈ body j, isBlankB l = false)
    (hbne : ∀ j, body j ≠ [])
    (hnlh : ∀ j, '\n' ∉ hd j) (hnlb : ∀ j, ∀ l ∈ body j, '\n' ∉ l)
    (x y z : Fin 3) (hxy : x ≠ y) (hxz : x ≠ z) (hyz : y ≠ z) :
    heuristicJson (joinNL (threeSections hd body x y z)) =
      Json.obj [(rcKey, Json.str (fieldOf (body 0))),
        (descKey, Json.str (fieldOf (body 1))), (ecKey, Json.str (fieldOf (body 2)))] := by
  have hnlAll : ∀ l ∈ threeSections hd body x y z, '\n' ∉ l := by
    intro l hl
    unfold threeSections at hl
    rcases List.mem_append.1 hl with h1 | h1
    · rcases List.mem_cons.1 h1 with he | hm
      · exact he ▸ hnlh x
      · exact hnlb x l hm
    · rcases List.mem_cons.1 h1 with he | h2
      · simp [he]
      · rcases List.mem_append.1 h2 with h3 | h3
        · rcases List.mem_cons.1 h3 with he | hm
          · exact he ▸ hnlh y
          · exact hnlb y l hm
        · rcases List.mem_cons.1 h3 with he | h4
          · simp [he]
          · rcases List.mem_cons.1 h4 with he | hm
            · exact he ▸ hnlh z
            · exact hnlb z l hm
  have hLne : threeSections hd body x y z ≠ [] := by simp [threeSections]
  have hsec : ∀ t : Fin 3,
      extractSection (threeSections hd body x y z) (kwSet t) = fieldOf (body t) := by
    intro t
    unfold extractSection fieldOf
    rw [extractGo_threeSections hd body hhd hcross hbody hblank hbne x y z hxy hxz hyz t]
  unfold heuristicJson
  rw [splitChar_joinNL hnlAll hLne]
  rw [show extractSection (threeSections hd body x y z) rcKeywords = fieldOf (body 0) from
      hsec 0,
    show extractSection (threeSections hd body x y z) descKeywords = fieldOf (body 1) from
      hsec 1,
    show extractSection (threeSections hd body x y z) edgeKeywords = fieldOf (body 2) from
      hsec 2]

/-- C8: for heuristic-mode text made of the three sections — each a
recognized header for exactly its own keyword set followed by a non-empty
body of non-blank, non-header, newline-free lines, sections separated by
blank lines — every permutation of the section order yields a record with
the same per-field content. -/
theorem c8_order_independence (hd : Fin 3 → List Char)
    (body : Fin 3 → List (List Char))
    (hhd : ∀ i, lineHeaderB (kwSet i) (hd i) = true)
    (hcross : ∀ i j, i ≠ j → lineHeaderB (kwSet i) (hd j) = false)
    (hbody : ∀ i j, ∀ l ∈ body j, lineHeaderB (kwSet i) l = false)
    (hblank : ∀ j, ∀ l ∈ body j, isBlankB l = false)
    (hbne : ∀ j, body j ≠ [])
    (hnlh : ∀ j, '\n' ∉ hd j) (hnlb : ∀ j, ∀ l ∈ body j, '\n' ∉ l)
    (a b c a2 b2 c2 : Fin 3) (hab : a ≠ b) (hac : a ≠ c) (hbc : b ≠ c)
    (hab2 : a2 ≠ b2) (hac2 : a2 ≠ c2) (hbc2 : b2 ≠ c2) :
    heuristicJson (joinNL (threeSections hd body a b c)) =
      heuristicJson (joinNL (threeSections hd body a2 b2 c2)) := by
  rw [heuristicJson_threeSections hd body hhd hcross hbody hblank hbne hnlh hnlb
      a b c hab hac hbc,
    heuristicJson_threeSections hd body hhd hcross hbody hblank hbne hnlh hnlb
      a2 b2 c2 hab2 hac2 hbc2]

def c8hd : Fin 3 → List Char
  | 0 => lc "Resolution Criteria:"
  | 1 => lc "Description:"
  | 2 => lc "Edge Cases:"

def c8body : Fin 3 → List (List Char)
  | 0 => [lc "Market resolves YES if X happens."]
  | 1 => [lc "This market tracks X."]
  | 2 => [lc "Ambiguous if Y."]

theorem c8_order_independence_witness :
    (∀ i, lineHeaderB (kwSet i) (c8hd i) = true) ∧
    (∀ i j, i ≠ j → lineHeaderB (kwSet i) (c8hd j) = false) ∧
    heuristicJson (joinNL (threeSections c8hd c8body 0 1 2)) =
      heuristicJson (joinNL (threeSections c8hd c8body 2 0 1)) :=
  ⟨by decide, by decide,
    c8_order_independence c8hd c8body (by decide) (by decide) (by decide) (by decide)
      (by decide) (by decide) (by decide) 0 1 2 2 0 1 (by decide) (by decide) (by decide)
      (by decide) (by decide) (by decide)⟩
